import Mathlib

/-!
Shallow embedding of the T1 bit-packing compression script
(`scripts_locais/T1_v1.py`): Shannon entropy and redundancy of byte
sequences, the fixed-width bit-packing encoder, and the pure core of the
test driver that assembles the result record.

Conventions of the embedding:
* Python `str` is a list of Unicode codepoints, `List Nat`.
* Python `bytes` is `List Nat` (each element a byte value).
* Python binary-digit strings (`format(i, "0Nb")`) are `List Bool`,
  most significant bit first.
* Python floats are real numbers.
* A Python dict built by a comprehension over an enumerated list is an
  association list `List (Nat × List Bool)` looked up with `List.lookup`.
-/

namespace T1

/-- `"".join`-style bit-string value: interpret a most-significant-bit-first
list of bits as a natural number (`int(s, 2)` in the source). -/
def bitsToNat (bs : List Bool) : Nat :=
  bs.foldl (fun acc b => 2 * acc + (if b then 1 else 0)) 0

/-- Binary digits of `n`, most significant first, no leading zeros;
`[]` for `0` (the digit part of Python's `format(n, "b")` without the
special case for zero). -/
def natBits : Nat → List Bool
  | 0 => []
  | n + 1 => natBits ((n + 1) / 2) ++ [decide ((n + 1) % 2 = 1)]
decreasing_by exact Nat.div_lt_self (Nat.succ_pos n) (by omega)

/-- Python's `format(n, f"0{w}b")`: binary digits of `n` (at least one
digit, so `0` prints as `"0"`) left-padded with zeros to width `w`. -/
def pyFormatBin (w n : Nat) : List Bool :=
  let digits := if n = 0 then [false] else natBits n
  List.replicate (w - digits.length) false ++ digits

/-- `bytes(int(bits[i:i+8], 2) for i in range(0, len(bits), 8))`:
pack a bit list into bytes, eight most-significant-first bits per byte. -/
def packBytes : List Bool → List Nat
  | [] => []
  | b :: rest => bitsToNat (List.take 8 (b :: rest)) :: packBytes (List.drop 8 (b :: rest))
termination_by bs => bs.length
decreasing_by simp [List.length_drop]; omega

/-- Metadata dictionary returned by `bit_packing_texto`.  The
`n_caracteres_unicos` key is optional because the empty-text branch of the
source returns a dict without it. -/
structure Metadados where
  tabela : List (Nat × List Bool)
  bits_por_char : Nat
  padding : Nat
  n_caracteres_unicos : Option Nat
  deriving Repr, DecidableEq

/-- `sorted(set(texto))`: the distinct codepoints of the text in ascending
order. -/
def caracteres (texto : List Nat) : List Nat :=
  texto.toFinset.sort (· ≤ ·)

/-- `max(1, math.ceil(math.log2(n_chars)))`; `Nat.clog 2` is the exact
ceiling of the base-2 logarithm. -/
def bits_por_char (texto : List Nat) : Nat :=
  max 1 (Nat.clog 2 (caracteres texto).length)

/-- `{c: format(i, f"0{bits_por_char}b") for i, c in enumerate(caracteres)}`. -/
def tabela (texto : List Nat) : List (Nat × List Bool) :=
  (caracteres texto).enum.map (fun ic => (ic.2, pyFormatBin (bits_por_char texto) ic.1))

/-- `"".join(tabela[c] for c in texto)`: the concatenated per-character
codes, in input order.  The `.getD []` default is never used: every
character of the text is a key of the table. -/
def bitsStream (texto : List Nat) : List Bool :=
  (texto.map (fun c => ((tabela texto).lookup c).getD [])).flatten

/-- `(8 - len(bits) % 8) % 8`. -/
def paddingOf (texto : List Nat) : Nat :=
  (8 - (bitsStream texto).length % 8) % 8

/-- `bit_packing_texto(texto)` from the source: compress a text by
fixed-width bit packing, returning the packed bytes and the metadata. -/
def bit_packing_texto (texto : List Nat) : List Nat × Metadados :=
  if texto = [] then
    ([], { tabela := [], bits_por_char := 0, padding := 0, n_caracteres_unicos := none })
  else
    let n_chars := (caracteres texto).length
    let bpc := bits_por_char texto
    let bits := bitsStream texto ++ List.replicate (paddingOf texto) false
    (packBytes bits,
     { tabela := tabela texto
       bits_por_char := bpc
       padding := paddingOf texto
       n_caracteres_unicos := some n_chars })

/-- `calcular_entropia(dados)`: Shannon entropy of a byte sequence, in
bits per byte.  The inner `if` mirrors the `if p > 0` guard of the
source's loop over the counter values. -/
noncomputable def calcular_entropia (dados : List Nat) : ℝ :=
  if dados = [] then 0
  else
    - ∑ b ∈ dados.toFinset,
        (if ((dados.count b : ℝ) / (dados.length : ℝ)) > 0
         then ((dados.count b : ℝ) / (dados.length : ℝ)) *
              Real.logb 2 ((dados.count b : ℝ) / (dados.length : ℝ))
         else 0)

/-- `calcular_redundancia(entropia_atual, entropia_maxima)`. -/
noncomputable def calcular_redundancia (entropia_atual entropia_maxima : ℝ) : ℝ :=
  if entropia_maxima = 0 then 0
  else max 0 (1 - entropia_atual / entropia_maxima)

/-- UTF-8 encoding of one Unicode codepoint (`texto.encode("utf-8")`,
per character). -/
def utf8Bytes (c : Nat) : List Nat :=
  if c < 128 then [c]
  else if c < 2048 then [192 + c / 64, 128 + c % 64]
  else if c < 65536 then [224 + c / 4096, 128 + (c / 64) % 64, 128 + c % 64]
  else [240 + c / 262144, 128 + (c / 4096) % 64, 128 + (c / 64) % 64, 128 + c % 64]

/-- `medir_recursos_sistema()` snapshot: CPU times and memory counters of
the process at one instant. -/
structure Recursos where
  cpu_user : ℝ
  cpu_system : ℝ
  memoria_rss : ℤ
  memoria_vms : ℤ

/-- The `resultados` record assembled by `executar_teste` (the fields the
core computes; string constants such as the file name are carried
verbatim, the wall-clock timestamp is a parameter of the run). -/
structure Resultados where
  ficheiro : String
  algoritmo : String
  versao_script : String
  origem : String
  comentario_previo : String
  timestamp : String
  tamanho_original : Nat
  tamanho_final : Nat
  taxa_compressao : ℝ
  ganho_compressao : ℝ
  entropia_inicial : ℝ
  entropia_final : ℝ
  variacao_entropia : ℝ
  variacao_entropia_relativa : ℝ
  redundancia_inicial : ℝ
  redundancia_final : ℝ
  tempo_execucao_ms : ℝ
  cpu_utilizado : ℝ
  memoria_utilizada : ℤ
  bits_por_caracter : Nat
  padding_bits : Nat
  caracteres_unicos : Nat
  perdas_detectadas : Bool
  nivel_ruido : ℝ

/-- Pure core of `executar_teste()`.  The file read is a parameter
(`none` models a read failure), as are the two resource snapshots, the
two `perf_counter` readings and the wall-clock timestamp — the
measurements the source takes around the encode call.  `none` is
returned exactly where the source returns `None` (read failure, empty
text); the final `match` models the `metadados["n_caracteres_unicos"]`
dict lookup, whose missing-key case would be an uncaught `KeyError`. -/
noncomputable def executar_teste (leitura : Option (List Nat))
    (recursos_inicio recursos_fim : Recursos)
    (tempo_inicio tempo_fim : ℝ) (timestamp : String) : Option Resultados :=
  match leitura with
  | none => none
  | some texto =>
    if texto = [] then none
    else
      let dados_originais := (texto.map utf8Bytes).flatten
      let tamanho_original := dados_originais.length
      let resultado := bit_packing_texto texto
      let dados_comprimidos := resultado.1
      let metadados := resultado.2
      let tamanho_final := dados_comprimidos.length
      let taxa_compressao : ℝ :=
        if tamanho_original > 0 then (tamanho_final : ℝ) / (tamanho_original : ℝ) else 0
      let tempo_execucao := (tempo_fim - tempo_inicio) * 1000
      let entropia_inicial := calcular_entropia dados_originais
      let entropia_final := calcular_entropia dados_comprimidos
      let entropia_maxima : ℝ := 8
      let redundancia_inicial := calcular_redundancia entropia_inicial entropia_maxima
      let redundancia_final := calcular_redundancia entropia_final entropia_maxima
      let variacao_entropia := entropia_final - entropia_inicial
      let variacao_entropia_relativa :=
        if entropia_inicial > 0 then variacao_entropia / entropia_inicial else 0
      let cpu_utilizado := (recursos_fim.cpu_user - recursos_inicio.cpu_user) * 100
      let memoria_utilizada := recursos_fim.memoria_rss - recursos_inicio.memoria_rss
      match metadados.n_caracteres_unicos with
      | none => none
      | some n_unicos =>
        some
          { ficheiro := "texto_teste_1.txt"
            algoritmo := "bit_packing"
            versao_script := "v1"
            origem := "local"
            comentario_previo := "Teste de compressão estrutural com bit packing"
            timestamp := timestamp
            tamanho_original := tamanho_original
            tamanho_final := tamanho_final
            taxa_compressao := taxa_compressao
            ganho_compressao := 1 - taxa_compressao
            entropia_inicial := entropia_inicial
            entropia_final := entropia_final
            variacao_entropia := variacao_entropia
            variacao_entropia_relativa := variacao_entropia_relativa
            redundancia_inicial := redundancia_inicial
            redundancia_final := redundancia_final
            tempo_execucao_ms := tempo_execucao
            cpu_utilizado := cpu_utilizado
            memoria_utilizada := memoria_utilizada
            bits_por_caracter := metadados.bits_por_char
            padding_bits := metadados.padding
            caracteres_unicos := n_unicos
            perdas_detectadas := false
            nivel_ruido := variacao_entropia_relativa }

/-- Unpack one byte into its eight bits, most significant first (the
inverse reading direction of `packBytes`). -/
def unpackByte (v : Nat) : List Bool :=
  (List.range 8).map (fun j => v.testBit (7 - j))

/-- Unpack a byte sequence into its bit stream, most-significant-bit
first within each byte. -/
def unpackBytes (bytes : List Nat) : List Bool :=
  (bytes.map unpackByte).flatten

/-- Split a bit stream into consecutive groups of `w` bits (the reader
side of the fixed-width code concatenation). -/
def chunkBits : Nat → List Bool → List (List Bool)
  | _, [] => []
  | 0, _ :: _ => []
  | w + 1, b :: rest =>
      List.take (w + 1) (b :: rest) :: chunkBits (w + 1) (List.drop (w + 1) (b :: rest))
termination_by _ bs => bs.length
decreasing_by simp [List.length_drop]; omega

/-- Decode a bit stream by cutting it into `w`-bit codes and mapping each
code's value to the character at that index of the sorted alphabet. -/
def decodeStream (cars : List Nat) (w : Nat) (bs : List Bool) : List Nat :=
  (chunkBits w bs).map (fun code => cars.getD (bitsToNat code) 0)

/-! ### Bit-level lemmas -/

lemma bitsToNat_foldl (bs : List Bool) (acc : Nat) :
    bs.foldl (fun a b => 2 * a + (if b then 1 else 0)) acc =
      acc * 2 ^ bs.length + bs.foldl (fun a b => 2 * a + (if b then 1 else 0)) 0 := by
  induction bs generalizing acc with
  | nil => simp
  | cons b bs ih =>
    rw [List.foldl_cons, List.foldl_cons, ih, ih (2 * 0 + if b then 1 else 0)]
    simp only [List.length_cons]
    ring

lemma bitsToNat_append (xs ys : List Bool) :
    bitsToNat (xs ++ ys) = bitsToNat xs * 2 ^ ys.length + bitsToNat ys := by
  unfold bitsToNat
  rw [List.foldl_append, bitsToNat_foldl]

lemma bitsToNat_replicate_false (k : Nat) :
    bitsToNat (List.replicate k false) = 0 := by
  induction k with
  | zero => rfl
  | succ k ih =>
    have : List.replicate (k + 1) false = List.replicate k false ++ [false] := by
      rw [List.replicate_succ']
    rw [this, bitsToNat_append, ih]
    rfl

lemma bitsToNat_replicate_false_append (k : Nat) (l : List Bool) :
    bitsToNat (List.replicate k false ++ l) = bitsToNat l := by
  rw [bitsToNat_append, bitsToNat_replicate_false]
  simp

lemma bitsToNat_natBits (n : Nat) : bitsToNat (natBits n) = n := by
  induction n using Nat.strong_induction_on with
  | _ n ih =>
    match n with
    | 0 => simp [natBits, bitsToNat]
    | n + 1 =>
      rw [natBits, bitsToNat_append, ih ((n + 1) / 2) (Nat.div_lt_self (Nat.succ_pos n) (by omega))]
      simp only [List.length_singleton, pow_one]
      have : bitsToNat [decide ((n + 1) % 2 = 1)] = (n + 1) % 2 := by
        rcases Nat.mod_two_eq_zero_or_one (n + 1) with h | h <;> simp [h, bitsToNat]
      rw [this]
      omega

lemma natBits_length_le {n w : Nat} (h : n < 2 ^ w) : (natBits n).length ≤ w := by
  induction w generalizing n with
  | zero =>
    interval_cases n
    simp [natBits]
  | succ w ih =>
    match n with
    | 0 => simp [natBits]
    | n + 1 =>
      rw [natBits]
      have hp : 2 ^ (w + 1) = 2 ^ w * 2 := pow_succ 2 w
      have hdiv : (n + 1) / 2 < 2 ^ w := Nat.div_lt_of_lt_mul (by omega)
      simp only [List.length_append, List.length_singleton]
      have := ih hdiv
      omega

lemma bitsToNat_lt (bs : List Bool) : bitsToNat bs < 2 ^ bs.length := by
  induction bs using List.reverseRecOn with
  | nil => simp [bitsToNat]
  | append_singleton xs b ih =>
    rw [bitsToNat_append]
    simp only [List.length_append, List.length_singleton]
    have hb : bitsToNat [b] < 2 := by cases b <;> simp [bitsToNat]
    have : bitsToNat xs * 2 ^ 1 + bitsToNat [b] < 2 ^ (xs.length + 1) := by
      rw [pow_succ]
      omega
    simpa using this

lemma natBits_ne_nil {n : Nat} (h : n ≠ 0) : natBits n ≠ [] := by
  match n with
  | n + 1 =>
    rw [natBits]
    simp

lemma pyFormatBin_length {w n : Nat} (hn : n < 2 ^ w) (hw : 1 ≤ w) :
    (pyFormatBin w n).length = w := by
  unfold pyFormatBin
  by_cases h : n = 0
  · simp [h]
    omega
  · have h1 : 1 ≤ (natBits n).length :=
      List.length_pos.mpr (natBits_ne_nil h)
    have h2 : (natBits n).length ≤ w := natBits_length_le hn
    simp [h, List.length_replicate]
    omega

lemma bitsToNat_pyFormatBin (w n : Nat) : bitsToNat (pyFormatBin w n) = n := by
  by_cases h : n = 0
  · subst h
    have hz : pyFormatBin w 0 = List.replicate (w - 1) false ++ [false] := by
      simp [pyFormatBin]
    rw [hz, bitsToNat_replicate_false_append]
    rfl
  · have hnz : pyFormatBin w n =
        List.replicate (w - (natBits n).length) false ++ natBits n := by
      simp [pyFormatBin, h]
    rw [hnz, bitsToNat_replicate_false_append, bitsToNat_natBits]

/-! ### Alphabet and code-table lemmas -/

lemma caracteres_sorted_lt (texto : List Nat) :
    (caracteres texto).Sorted (· < ·) :=
  Finset.sort_sorted_lt _

lemma caracteres_nodup (texto : List Nat) : (caracteres texto).Nodup :=
  Finset.sort_nodup _ _

lemma mem_caracteres {texto : List Nat} {c : Nat} :
    c ∈ caracteres texto ↔ c ∈ texto := by
  simp [caracteres, Finset.mem_sort, List.mem_toFinset]

lemma caracteres_toFinset (texto : List Nat) :
    (caracteres texto).toFinset = texto.toFinset := by
  simp [caracteres, Finset.sort_toFinset]

lemma one_le_bits_por_char (texto : List Nat) : 1 ≤ bits_por_char texto :=
  le_max_left _ _

lemma card_le_pow_bits_por_char (texto : List Nat) :
    (caracteres texto).length ≤ 2 ^ bits_por_char texto := by
  calc (caracteres texto).length
      ≤ 2 ^ Nat.clog 2 (caracteres texto).length :=
        Nat.le_pow_clog (by norm_num) _
    _ ≤ 2 ^ bits_por_char texto :=
        Nat.pow_le_pow_right (by norm_num) (le_max_right _ _)

lemma lookup_enumFrom_map (l : List Nat) (k : Nat) (f : Nat → List Bool) (c : Nat)
    (hc : c ∈ l) :
    (((l.enumFrom k).map (fun ic => (ic.2, f ic.1))).lookup c) =
      some (f (k + l.indexOf c)) := by
  induction l generalizing k with
  | nil => cases hc
  | cons a l ih =>
    by_cases h : c = a
    · subst h
      simp [List.enumFrom_cons, List.lookup]
    · have hc' : c ∈ l := by
        cases hc with
        | head => exact absurd rfl h
        | tail _ h2 => exact h2
      have hbeq : (c == a) = false := beq_false_of_ne h
      rw [List.enumFrom_cons]
      simp only [List.map_cons, List.lookup, hbeq]
      rw [ih (k + 1) hc', List.indexOf_cons_ne _ (Ne.symm h)]
      have harith : k + 1 + List.indexOf c l = k + (List.indexOf c l).succ := by omega
      rw [harith]

lemma lookup_tabela {texto : List Nat} {c : Nat} (hc : c ∈ texto) :
    (tabela texto).lookup c =
      some (pyFormatBin (bits_por_char texto) ((caracteres texto).indexOf c)) := by
  unfold tabela
  rw [List.enum]
  rw [lookup_enumFrom_map _ _ _ _ (mem_caracteres.mpr hc)]
  simp

lemma indexOf_lt_pow {texto : List Nat} {c : Nat} (hc : c ∈ texto) :
    (caracteres texto).indexOf c < 2 ^ bits_por_char texto :=
  lt_of_lt_of_le (List.indexOf_lt_length.mpr (mem_caracteres.mpr hc))
    (card_le_pow_bits_por_char texto)

lemma code_length {texto : List Nat} {c : Nat} (hc : c ∈ texto) :
    (((tabela texto).lookup c).getD []).length = bits_por_char texto := by
  rw [lookup_tabela hc]
  exact pyFormatBin_length (indexOf_lt_pow hc) (one_le_bits_por_char texto)

lemma bitsStream_length (texto : List Nat) :
    (bitsStream texto).length = texto.length * bits_por_char texto := by
  unfold bitsStream
  rw [List.length_flatten, List.map_map]
  have : ∀ c ∈ texto,
      (Function.comp List.length (fun c => ((tabela texto).lookup c).getD [])) c =
        bits_por_char texto := by
    intro c hc
    simpa using code_length hc
  rw [List.map_congr_left this, List.map_const', List.sum_replicate, smul_eq_mul,
    Nat.mul_comm]

/-! ### Packing lemmas -/

lemma packBytes_length (bs : List Bool) :
    (packBytes bs).length = (bs.length + 7) / 8 := by
  induction bs using packBytes.induct with
  | case1 => simp [packBytes]
  | case2 b rest ih =>
    rw [packBytes]
    simp only [List.length_cons, List.length_drop] at ih ⊢
    omega

lemma paddingOf_lt (texto : List Nat) : paddingOf texto < 8 :=
  Nat.mod_lt _ (by norm_num)

lemma dvd_len_add_padding (texto : List Nat) :
    8 ∣ (bitsStream texto).length + paddingOf texto := by
  unfold paddingOf
  omega

/-! ### Unpacking and decoding lemmas -/

lemma unpackBytes_cons (v : Nat) (vs : List Nat) :
    unpackBytes (v :: vs) = unpackByte v ++ unpackBytes vs := by
  simp [unpackBytes]

lemma unpackByte_bitsToNat (l : List Bool) (h : l.length = 8) :
    unpackByte (bitsToNat l) = l := by
  obtain ⟨b1, l, rfl⟩ := List.exists_of_length_succ l (show l.length = 7 + 1 by omega)
  simp only [List.length_cons] at h
  obtain ⟨b2, l, rfl⟩ := List.exists_of_length_succ l (show l.length = 6 + 1 by omega)
  simp only [List.length_cons] at h
  obtain ⟨b3, l, rfl⟩ := List.exists_of_length_succ l (show l.length = 5 + 1 by omega)
  simp only [List.length_cons] at h
  obtain ⟨b4, l, rfl⟩ := List.exists_of_length_succ l (show l.length = 4 + 1 by omega)
  simp only [List.length_cons] at h
  obtain ⟨b5, l, rfl⟩ := List.exists_of_length_succ l (show l.length = 3 + 1 by omega)
  simp only [List.length_cons] at h
  obtain ⟨b6, l, rfl⟩ := List.exists_of_length_succ l (show l.length = 2 + 1 by omega)
  simp only [List.length_cons] at h
  obtain ⟨b7, l, rfl⟩ := List.exists_of_length_succ l (show l.length = 1 + 1 by omega)
  simp only [List.length_cons] at h
  obtain ⟨b8, l, rfl⟩ := List.exists_of_length_succ l (show l.length = 0 + 1 by omega)
  simp only [List.length_cons] at h
  obtain rfl : l = [] := List.length_eq_zero.mp (by omega)
  cases b1 <;> cases b2 <;> cases b3 <;> cases b4 <;>
    cases b5 <;> cases b6 <;> cases b7 <;> cases b8 <;> rfl

lemma unpackBytes_packBytes (bs : List Bool) (h : 8 ∣ bs.length) :
    unpackBytes (packBytes bs) = bs := by
  induction bs using packBytes.induct with
  | case1 => simp [packBytes, unpackBytes]
  | case2 b rest ih =>
    obtain ⟨k, hk⟩ := h
    simp only [List.length_cons] at hk
    have htake : (List.take 8 (b :: rest)).length = 8 := by
      simp only [List.length_take, List.length_cons]
      omega
    have hdvd : 8 ∣ (List.drop 8 (b :: rest)).length := by
      simp only [List.length_drop, List.length_cons]
      exact ⟨k - 1, by omega⟩
    rw [packBytes, unpackBytes_cons,
      unpackByte_bitsToNat (List.take 8 (b :: rest)) htake, ih hdvd]
    exact List.take_append_drop 8 (b :: rest)

lemma chunkBits_append (w : Nat) (l rest : List Bool) (hl : l.length = w)
    (hw : 1 ≤ w) : chunkBits w (l ++ rest) = l :: chunkBits w rest := by
  match w, hw with
  | w + 1, _ =>
    match l, hl with
    | b :: l, hl =>
      rw [List.cons_append, chunkBits]
      rw [← List.cons_append, List.take_left' hl, List.drop_left' hl]

lemma chunkBits_flatten (w : Nat) (hw : 1 ≤ w) (ls : List (List Bool))
    (h : ∀ l ∈ ls, l.length = w) : chunkBits w ls.flatten = ls := by
  induction ls with
  | nil =>
    match w, hw with
    | w + 1, _ => rw [List.flatten_nil, chunkBits]
  | cons l ls ih =>
    rw [List.flatten_cons, chunkBits_append w l ls.flatten (h l (by simp)) hw]
    rw [ih (fun x hx => h x (by simp [hx]))]

lemma getD_indexOf {l : List Nat} {c : Nat} (hc : c ∈ l) :
    l.getD (l.indexOf c) 0 = c := by
  have hlt : l.indexOf c < l.length := List.indexOf_lt_length.mpr hc
  rw [List.getD_eq_getElem l 0 hlt, List.getElem_indexOf hlt]

lemma decodeStream_bitsStream (texto : List Nat) :
    decodeStream (caracteres texto) (bits_por_char texto) (bitsStream texto) = texto := by
  unfold decodeStream bitsStream
  rw [chunkBits_flatten _ (one_le_bits_por_char texto) _ ?hlen]
  case hlen =>
    intro l hl
    rw [List.mem_map] at hl
    obtain ⟨c, hc, rfl⟩ := hl
    exact code_length hc
  rw [List.map_map]
  have hid : ∀ c ∈ texto,
      ((fun code => (caracteres texto).getD (bitsToNat code) 0) ∘
        (fun c => ((tabela texto).lookup c).getD [])) c = id c := by
    intro c hc
    simp only [Function.comp_apply, id_eq, lookup_tabela hc, Option.getD_some,
      bitsToNat_pyFormatBin]
    exact getD_indexOf (mem_caracteres.mpr hc)
  rw [List.map_congr_left hid, List.map_id]

/-! ### Entropy lemmas -/

lemma sum_count_toFinset (l : List Nat) :
    ∑ b ∈ l.toFinset, (l.count b : ℝ) = (l.length : ℝ) := by
  have h : ∑ b ∈ l.toFinset, l.count b = l.length := by
    simpa using Multiset.toFinset_sum_count_eq (l : Multiset Nat)
  exact_mod_cast h

lemma prob_pos {dados : List Nat} {b : Nat} (hb : b ∈ dados.toFinset) :
    0 < (dados.count b : ℝ) / (dados.length : ℝ) := by
  have hmem : b ∈ dados := List.mem_toFinset.mp hb
  have hc : 0 < dados.count b := List.count_pos_iff.mpr hmem
  have hl : 0 < dados.length := List.length_pos.mpr (List.ne_nil_of_mem hmem)
  apply div_pos
  · exact_mod_cast hc
  · exact_mod_cast hl

lemma prob_le_one {dados : List Nat} (b : Nat) (hne : dados ≠ []) :
    (dados.count b : ℝ) / (dados.length : ℝ) ≤ 1 := by
  have hl : 0 < (dados.length : ℝ) := by
    exact_mod_cast List.length_pos.mpr hne
  rw [div_le_one hl]
  exact_mod_cast List.count_le_length b dados

lemma sum_prob {dados : List Nat} (hne : dados ≠ []) :
    ∑ b ∈ dados.toFinset, (dados.count b : ℝ) / (dados.length : ℝ) = 1 := by
  rw [← Finset.sum_div, sum_count_toFinset]
  have hl : (dados.length : ℝ) ≠ 0 := by
    exact_mod_cast Nat.pos_iff_ne_zero.mp (List.length_pos.mpr hne)
  exact div_self hl

lemma calcular_entropia_eq {dados : List Nat} (hne : dados ≠ []) :
    calcular_entropia dados =
      - ∑ b ∈ dados.toFinset,
          ((dados.count b : ℝ) / (dados.length : ℝ)) *
            Real.logb 2 ((dados.count b : ℝ) / (dados.length : ℝ)) := by
  unfold calcular_entropia
  rw [if_neg hne]
  congr 1
  apply Finset.sum_congr rfl
  intro b hb
  rw [if_pos (prob_pos hb)]

lemma calcular_entropia_nonneg (dados : List Nat) : 0 ≤ calcular_entropia dados := by
  by_cases hne : dados = []
  · simp [calcular_entropia, hne]
  · rw [calcular_entropia_eq hne, neg_nonneg]
    apply Finset.sum_nonpos
    intro b hb
    have hp := prob_pos hb
    have h1 := prob_le_one b hne
    have hlog : Real.logb 2 ((dados.count b : ℝ) / (dados.length : ℝ)) ≤ 0 :=
      Real.logb_nonpos (by norm_num) hp.le h1
    exact mul_nonpos_of_nonneg_of_nonpos hp.le hlog

lemma calcular_entropia_le_eight {dados : List Nat} (hb : ∀ x ∈ dados, x < 256) :
    calcular_entropia dados ≤ 8 := by
  by_cases hne : dados = []
  · simp [calcular_entropia, hne]
  · rw [calcular_entropia_eq hne]
    set t := dados.toFinset with ht
    set p : Nat → ℝ := fun b => (dados.count b : ℝ) / (dados.length : ℝ) with hp
    have hppos : ∀ b ∈ t, 0 < p b := fun b hbt => prob_pos hbt
    have hsum : ∑ b ∈ t, p b = 1 := sum_prob hne
    have hlog2 : (0 : ℝ) < Real.log 2 := Real.log_pos (by norm_num)
    have hcardpos : (1 : ℝ) ≤ (t.card : ℝ) := by
      obtain ⟨a, ha⟩ := List.exists_mem_of_ne_nil dados hne
      have : 0 < t.card := Finset.card_pos.mpr ⟨a, List.mem_toFinset.mpr ha⟩
      exact_mod_cast this
    have hcard256 : (t.card : ℝ) ≤ 256 := by
      have hsub : t ⊆ Finset.range 256 := fun b hbt =>
        Finset.mem_range.mpr (hb b (List.mem_toFinset.mp hbt))
      have := le_trans (Finset.card_le_card hsub) (le_of_eq (Finset.card_range 256))
      exact_mod_cast this
    have hjen : ∑ b ∈ t, p b * Real.log (p b)⁻¹ ≤ Real.log (t.card : ℝ) := by
      have hcon : ConcaveOn ℝ (Set.Ioi 0) Real.log := strictConcaveOn_log_Ioi.concaveOn
      have h := hcon.le_map_sum (t := t) (w := p) (p := fun b => (p b)⁻¹)
        (fun b hbt => (hppos b hbt).le) hsum
        (fun b hbt => Set.mem_Ioi.mpr (inv_pos.mpr (hppos b hbt)))
      have hsum2 : ∑ b ∈ t, p b • (p b)⁻¹ = (t.card : ℝ) := by
        have heach : ∀ b ∈ t, p b • (p b)⁻¹ = (1 : ℝ) := by
          intro b hbt
          rw [smul_eq_mul, mul_inv_cancel₀ (hppos b hbt).ne']
        rw [Finset.sum_congr rfl heach, Finset.sum_const, nsmul_eq_mul, mul_one]
      rw [hsum2] at h
      simpa [smul_eq_mul] using h
    have hterm : ∀ b ∈ t, -(p b * Real.logb 2 (p b)) = p b * Real.log (p b)⁻¹ / Real.log 2 := by
      intro b hbt
      rw [Real.log_inv, Real.logb]
      field_simp
    calc - ∑ b ∈ t, p b * Real.logb 2 (p b)
        = ∑ b ∈ t, -(p b * Real.logb 2 (p b)) := by rw [Finset.sum_neg_distrib]
      _ = ∑ b ∈ t, p b * Real.log (p b)⁻¹ / Real.log 2 := Finset.sum_congr rfl hterm
      _ = (∑ b ∈ t, p b * Real.log (p b)⁻¹) / Real.log 2 := by rw [Finset.sum_div]
      _ ≤ Real.log (t.card : ℝ) / Real.log 2 := (div_le_div_iff_of_pos_right hlog2).mpr hjen
      _ ≤ Real.log 256 / Real.log 2 := by
          apply (div_le_div_iff_of_pos_right hlog2).mpr
          exact Real.log_le_log (by linarith) hcard256
      _ = 8 := by
          rw [show (256 : ℝ) = 2 ^ (8 : ℕ) by norm_num, Real.log_pow]
          field_simp

lemma calcular_entropia_const {dados : List Nat} {b : Nat} (hne : dados ≠ [])
    (hall : ∀ x ∈ dados, x = b) : calcular_entropia dados = 0 := by
  have htf : dados.toFinset = {b} := by
    obtain ⟨a, ha⟩ := List.exists_mem_of_ne_nil dados hne
    apply Finset.ext
    intro x
    simp only [List.mem_toFinset, Finset.mem_singleton]
    constructor
    · intro hx
      exact hall x hx
    · intro hx
      subst hx
      rw [← hall a ha]
      exact ha
  have hcount : dados.count b = dados.length := by
    rw [List.count_eq_length]
    intro x hx
    exact (hall x hx) ▸ rfl
  have hlen : ((dados.length : ℝ)) ≠ 0 := by
    exact_mod_cast (List.length_pos.mpr hne).ne'
  rw [calcular_entropia_eq hne, htf, Finset.sum_singleton, hcount, div_self hlen,
    Real.logb_one, mul_zero, neg_zero]

/-! ### The encoder on non-empty input -/

lemma bit_packing_texto_ne {texto : List Nat} (h : texto ≠ []) :
    bit_packing_texto texto =
      (packBytes (bitsStream texto ++ List.replicate (paddingOf texto) false),
       { tabela := tabela texto
         bits_por_char := bits_por_char texto
         padding := paddingOf texto
         n_caracteres_unicos := some (caracteres texto).length }) := by
  simp [bit_packing_texto, h]

lemma compressed_bit_length {texto : List Nat} (h : texto ≠ []) :
    (bit_packing_texto texto).1.length * 8 =
      (bitsStream texto).length + paddingOf texto := by
  rw [bit_packing_texto_ne h]
  simp only
  rw [packBytes_length]
  have hlen : (bitsStream texto ++ List.replicate (paddingOf texto) false).length =
      (bitsStream texto).length + paddingOf texto := by
    simp
  rw [hlen]
  obtain ⟨k, hk⟩ := dvd_len_add_padding texto
  omega

lemma unpack_compressed {texto : List Nat} (h : texto ≠ []) :
    unpackBytes (bit_packing_texto texto).1 =
      bitsStream texto ++ List.replicate (paddingOf texto) false := by
  rw [bit_packing_texto_ne h]
  apply unpackBytes_packBytes
  have hlen : (bitsStream texto ++ List.replicate (paddingOf texto) false).length =
      (bitsStream texto).length + paddingOf texto := by
    simp
  rw [hlen]
  exact dvd_len_add_padding texto

lemma tabela_length (texto : List Nat) :
    (tabela texto).length = (caracteres texto).length := by
  simp [tabela]

lemma tabela_getElem {texto : List Nat} {i : Nat} (hi : i < (caracteres texto).length) :
    (tabela texto).getD i (0, []) =
      ((caracteres texto).getD i 0, pyFormatBin (bits_por_char texto) i) := by
  have hi2 : i < (tabela texto).length := by rw [tabela_length]; exact hi
  rw [List.getD_eq_getElem _ _ hi2, List.getD_eq_getElem _ _ hi]
  unfold tabela
  simp only [List.getElem_map, List.getElem_enum]

/-! ### The assembled record on non-empty input -/

/-- The record `executar_teste` assembles when the text is non-empty
(the reduct of the success path, used to state its behaviour). -/
noncomputable def resultadosDe (texto : List Nat) (rI rF : Recursos)
    (tI tF : ℝ) (ts : String) : Resultados :=
  { ficheiro := "texto_teste_1.txt"
    algoritmo := "bit_packing"
    versao_script := "v1"
    origem := "local"
    comentario_previo := "Teste de compressão estrutural com bit packing"
    timestamp := ts
    tamanho_original := ((texto.map utf8Bytes).flatten).length
    tamanho_final := (bit_packing_texto texto).1.length
    taxa_compressao :=
      if ((texto.map utf8Bytes).flatten).length > 0 then
        ((bit_packing_texto texto).1.length : ℝ) /
          (((texto.map utf8Bytes).flatten).length : ℝ)
      else 0
    ganho_compressao := 1 -
      (if ((texto.map utf8Bytes).flatten).length > 0 then
        ((bit_packing_texto texto).1.length : ℝ) /
          (((texto.map utf8Bytes).flatten).length : ℝ)
      else 0)
    entropia_inicial := calcular_entropia ((texto.map utf8Bytes).flatten)
    entropia_final := calcular_entropia (bit_packing_texto texto).1
    variacao_entropia := calcular_entropia (bit_packing_texto texto).1 -
      calcular_entropia ((texto.map utf8Bytes).flatten)
    variacao_entropia_relativa :=
      if calcular_entropia ((texto.map utf8Bytes).flatten) > 0 then
        (calcular_entropia (bit_packing_texto texto).1 -
          calcular_entropia ((texto.map utf8Bytes).flatten)) /
          calcular_entropia ((texto.map utf8Bytes).flatten)
      else 0
    redundancia_inicial :=
      calcular_redundancia (calcular_entropia ((texto.map utf8Bytes).flatten)) 8
    redundancia_final :=
      calcular_redundancia (calcular_entropia (bit_packing_texto texto).1) 8
    tempo_execucao_ms := (tF - tI) * 1000
    cpu_utilizado := (rF.cpu_user - rI.cpu_user) * 100
    memoria_utilizada := rF.memoria_rss - rI.memoria_rss
    bits_por_caracter := (bit_packing_texto texto).2.bits_por_char
    padding_bits := (bit_packing_texto texto).2.padding
    caracteres_unicos := (caracteres texto).length
    perdas_detectadas := false
    nivel_ruido :=
      if calcular_entropia ((texto.map utf8Bytes).flatten) > 0 then
        (calcular_entropia (bit_packing_texto texto).1 -
          calcular_entropia ((texto.map utf8Bytes).flatten)) /
          calcular_entropia ((texto.map utf8Bytes).flatten)
      else 0 }

lemma executar_teste_eq_some {texto : List Nat} (h : texto ≠ [])
    (rI rF : Recursos) (tI tF : ℝ) (ts : String) :
    executar_teste (some texto) rI rF tI tF ts =
      some (resultadosDe texto rI rF tI tF ts) := by
  have hn : (bit_packing_texto texto).2.n_caracteres_unicos =
      some (caracteres texto).length := by
    rw [bit_packing_texto_ne h]
  simp only [executar_teste, if_neg h]
  rw [hn]
  rfl

/-! ### Claim theorems -/

/-- C1: for every non-empty input string, the compressed output of
`bit_packing_texto` satisfies `len(compressed) * 8 = len(text) *
bits_per_char + padding`, where `padding` is the value recorded in the
metadata and `0 ≤ padding ≤ 7`. -/
theorem packed_bit_length_eq (texto : List Nat) (h : texto ≠ []) :
    (bit_packing_texto texto).1.length * 8 =
        texto.length * (bit_packing_texto texto).2.bits_por_char +
          (bit_packing_texto texto).2.padding ∧
      (bit_packing_texto texto).2.padding ≤ 7 := by
  constructor
  · have h1 := compressed_bit_length h
    have h2 := bitsStream_length texto
    have h3 : (bit_packing_texto texto).2.bits_por_char = bits_por_char texto := by
      rw [bit_packing_texto_ne h]
    have h4 : (bit_packing_texto texto).2.padding = paddingOf texto := by
      rw [bit_packing_texto_ne h]
    rw [h3, h4, h1, h2]
  · have h4 : (bit_packing_texto texto).2.padding = paddingOf texto := by
      rw [bit_packing_texto_ne h]
    rw [h4]
    exact Nat.lt_succ_iff.mp (paddingOf_lt texto)

theorem packed_bit_length_eq_witness :
    (bit_packing_texto [97, 97, 98, 98, 98, 99, 99]).1.length * 8 =
        7 * (bit_packing_texto [97, 97, 98, 98, 98, 99, 99]).2.bits_por_char +
          (bit_packing_texto [97, 97, 98, 98, 98, 99, 99]).2.padding ∧
      (bit_packing_texto [97, 97, 98, 98, 98, 99, 99]).2.padding ≤ 7 :=
  packed_bit_length_eq [97, 97, 98, 98, 98, 99, 99] (by decide)

/-- C2: for every non-empty input, the code table maps the distinct
characters, taken in ascending codepoint-sorted order, to fixed-width
codes: the character list is strictly sorted and carries exactly the
distinct characters, `bits_per_char = max(1, ceil(log2 n)) ≥ 1`, and the
`i`-th table entry pairs the `i`-th sorted character with the width-
`bits_per_char` binary code of the integer `i`. -/
theorem code_table_canonical (texto : List Nat) (h : texto ≠ []) :
    1 ≤ (bit_packing_texto texto).2.bits_por_char ∧
    (bit_packing_texto texto).2.bits_por_char =
      max 1 (Nat.clog 2 (caracteres texto).length) ∧
    (caracteres texto).Sorted (· < ·) ∧
    (caracteres texto).toFinset = texto.toFinset ∧
    (bit_packing_texto texto).2.tabela = tabela texto ∧
    (tabela texto).length = (caracteres texto).length ∧
    ∀ i, i < (caracteres texto).length →
      (tabela texto).getD i (0, []) =
          ((caracteres texto).getD i 0,
            pyFormatBin (bit_packing_texto texto).2.bits_por_char i) ∧
        (pyFormatBin (bit_packing_texto texto).2.bits_por_char i).length =
          (bit_packing_texto texto).2.bits_por_char ∧
        bitsToNat (pyFormatBin (bit_packing_texto texto).2.bits_por_char i) = i := by
  have h3 : (bit_packing_texto texto).2.bits_por_char = bits_por_char texto := by
    rw [bit_packing_texto_ne h]
  refine ⟨?_, ?_, caracteres_sorted_lt texto, caracteres_toFinset texto, ?_,
    tabela_length texto, ?_⟩
  · rw [h3]
    exact one_le_bits_por_char texto
  · rw [h3]
    rfl
  · rw [bit_packing_texto_ne h]
  · intro i hi
    have hipow : i < 2 ^ bits_por_char texto :=
      lt_of_lt_of_le hi (card_le_pow_bits_por_char texto)
    rw [h3]
    exact ⟨tabela_getElem hi,
      pyFormatBin_length hipow (one_le_bits_por_char texto),
      bitsToNat_pyFormatBin _ i⟩

theorem code_table_canonical_witness :
    (tabela [97, 98, 99]).getD 1 (0, []) =
        ((caracteres [97, 98, 99]).getD 1 0,
          pyFormatBin (bit_packing_texto [97, 98, 99]).2.bits_por_char 1) ∧
      (caracteres [97, 98, 99]).Sorted (· < ·) :=
  ⟨((code_table_canonical [97, 98, 99] (by decide)).2.2.2.2.2.2 1 (by simp [caracteres])).1,
   (code_table_canonical [97, 98, 99] (by decide)).2.2.1⟩

/-- C3: for every non-empty input, unpacking the compressed bytes
most-significant-bit first and discarding the last `padding` bits yields
exactly the concatenated per-character bit stream; the code table is
injective with all codes of width `bits_per_char`; and decoding that bit
stream in `bits_per_char`-sized groups against the sorted alphabet
recovers the original character sequence. -/
theorem roundtrip_recoverable (texto : List Nat) (h : texto ≠ []) :
    (unpackBytes (bit_packing_texto texto).1).take
        ((bit_packing_texto texto).1.length * 8 - (bit_packing_texto texto).2.padding) =
      bitsStream texto ∧
    (∀ p1 ∈ (bit_packing_texto texto).2.tabela, ∀ p2 ∈ (bit_packing_texto texto).2.tabela,
        p1.2 = p2.2 → p1.1 = p2.1) ∧
    (∀ pr ∈ (bit_packing_texto texto).2.tabela,
        pr.2.length = (bit_packing_texto texto).2.bits_por_char) ∧
    decodeStream (caracteres texto) (bit_packing_texto texto).2.bits_por_char
        ((unpackBytes (bit_packing_texto texto).1).take
          ((bit_packing_texto texto).1.length * 8 - (bit_packing_texto texto).2.padding)) =
      texto := by
  have h3 : (bit_packing_texto texto).2.bits_por_char = bits_por_char texto := by
    rw [bit_packing_texto_ne h]
  have h4 : (bit_packing_texto texto).2.padding = paddingOf texto := by
    rw [bit_packing_texto_ne h]
  have h5 : (bit_packing_texto texto).2.tabela = tabela texto := by
    rw [bit_packing_texto_ne h]
  have hrec : (unpackBytes (bit_packing_texto texto).1).take
      ((bit_packing_texto texto).1.length * 8 - (bit_packing_texto texto).2.padding) =
      bitsStream texto := by
    rw [h4, unpack_compressed h, compressed_bit_length h]
    have : (bitsStream texto).length + paddingOf texto - paddingOf texto =
        (bitsStream texto).length := by omega
    rw [this]
    exact List.take_left' rfl
  have hmem : ∀ p ∈ tabela texto, ∃ i, i < (caracteres texto).length ∧
      p = ((caracteres texto).getD i 0, pyFormatBin (bits_por_char texto) i) := by
    intro p hp
    rw [List.mem_iff_getElem] at hp
    obtain ⟨i, hi, hpi⟩ := hp
    have hi2 : i < (caracteres texto).length := by
      rw [← tabela_length texto]
      exact hi
    refine ⟨i, hi2, ?_⟩
    rw [← hpi, ← List.getD_eq_getElem _ (0, ([] : List Bool)) hi, tabela_getElem hi2]
  refine ⟨hrec, ?_, ?_, ?_⟩
  · intro p1 hp1 p2 hp2 hcode
    rw [h5] at hp1 hp2
    obtain ⟨i, hi, rfl⟩ := hmem p1 hp1
    obtain ⟨j, hj, rfl⟩ := hmem p2 hp2
    simp only at hcode ⊢
    have hij : i = j := by
      have hbi := bitsToNat_pyFormatBin (bits_por_char texto) i
      have hbj := bitsToNat_pyFormatBin (bits_por_char texto) j
      rw [← hbi, ← hbj, hcode]
    rw [hij]
  · intro pr hpr
    rw [h5] at hpr
    obtain ⟨i, hi, rfl⟩ := hmem pr hpr
    rw [h3]
    exact pyFormatBin_length (lt_of_lt_of_le hi (card_le_pow_bits_por_char texto))
      (one_le_bits_por_char texto)
  · rw [hrec, h3]
    exact decodeStream_bitsStream texto

theorem roundtrip_recoverable_witness :
    decodeStream (caracteres [104, 105, 104]) (bit_packing_texto [104, 105, 104]).2.bits_por_char
        ((unpackBytes (bit_packing_texto [104, 105, 104]).1).take
          ((bit_packing_texto [104, 105, 104]).1.length * 8 -
            (bit_packing_texto [104, 105, 104]).2.padding)) =
      [104, 105, 104] :=
  (roundtrip_recoverable [104, 105, 104] (by decide)).2.2.2

/-- C4 (counterexample): on the empty string the metadata returned by
`bit_packing_texto` does not contain a distinct-character count of `0` —
the `n_caracteres_unicos` key is absent from the empty-text branch. -/
theorem empty_metadata_missing_count_key :
    ¬ ((bit_packing_texto []).2.n_caracteres_unicos = some 0) := by
  decide

/-- C4 (amended): `bit_packing_texto` applied to the empty string returns
empty bytes and metadata with an empty code table, `bits_per_char = 0`,
`padding = 0`, and no distinct-character-count entry (the key is absent,
rather than present with value `0`). -/
theorem bit_packing_texto_empty_spec :
    bit_packing_texto [] =
      ([], { tabela := [], bits_por_char := 0, padding := 0,
             n_caracteres_unicos := none }) := by
  rfl

/-- C5: for every byte sequence, the Shannon entropy lies in `[0, 8]`;
the entropy of the empty sequence is `0`; and the entropy of any
positive-length constant sequence is `0`. -/
theorem entropia_range (dados : List Nat) (hb : ∀ x ∈ dados, x < 256) :
    (0 ≤ calcular_entropia dados ∧ calcular_entropia dados ≤ 8) ∧
    calcular_entropia [] = 0 ∧
    ∀ b, dados ≠ [] → (∀ x ∈ dados, x = b) → calcular_entropia dados = 0 :=
  ⟨⟨calcular_entropia_nonneg dados, calcular_entropia_le_eight hb⟩,
   by simp [calcular_entropia],
   fun _ hne hall => calcular_entropia_const hne hall⟩

theorem entropia_range_witness :
    0 ≤ calcular_entropia [7, 7, 7] ∧ calcular_entropia [7, 7, 7] ≤ 8 ∧
      calcular_entropia [7, 7, 7] = 0 :=
  ⟨(entropia_range [7, 7, 7] (by decide)).1.1,
   (entropia_range [7, 7, 7] (by decide)).1.2,
   (entropia_range [7, 7, 7] (by decide)).2.2 7 (by decide) (by decide)⟩

/-- C6 (counterexample): `calcular_redundancia` is not always in `[0,1]`:
at entropy `-8` and maximum `8` it returns `2`. -/
theorem redundancia_not_in_unit_interval :
    ¬ (calcular_redundancia (-8) 8 ≤ 1) := by
  unfold calcular_redundancia
  norm_num

/-- C6 (amended): `calcular_redundancia e m` equals `max 0 (1 - e/m)` when
`m ≠ 0` and `0` when `m = 0`; the result lies in `[0,1]` whenever both
arguments are nonnegative (as they are at every call site, where `e` is an
entropy and `m = 8`), but not for arbitrary real inputs. -/
theorem redundancia_spec (e m : ℝ) :
    (m ≠ 0 → calcular_redundancia e m = max 0 (1 - e / m)) ∧
    (m = 0 → calcular_redundancia e m = 0) ∧
    (0 ≤ e → 0 ≤ m →
      0 ≤ calcular_redundancia e m ∧ calcular_redundancia e m ≤ 1) := by
  refine ⟨fun hm => if_neg hm, fun hm => if_pos hm, fun he hm => ?_⟩
  by_cases hm0 : m = 0
  · rw [calcular_redundancia, if_pos hm0]
    norm_num
  · rw [calcular_redundancia, if_neg hm0]
    refine ⟨le_max_left 0 _, ?_⟩
    have hm' : 0 < m := lt_of_le_of_ne hm (Ne.symm hm0)
    have hdiv : 0 ≤ e / m := div_nonneg he hm'.le
    exact max_le (by norm_num) (by linarith)

theorem redundancia_spec_witness :
    calcular_redundancia 4 8 = max 0 (1 - 4 / 8) ∧
      0 ≤ calcular_redundancia 4 8 ∧ calcular_redundancia 4 8 ≤ 1 :=
  ⟨(redundancia_spec 4 8).1 (by norm_num),
   ((redundancia_spec 4 8).2.2 (by norm_num) (by norm_num)).1,
   ((redundancia_spec 4 8).2.2 (by norm_num) (by norm_num)).2⟩

/-- C7: encoding is deterministic — `bit_packing_texto` is a function of
the text alone, and the character ordering the code table is built on is
uniquely determined: any strictly sorted list with the same distinct
elements as the text IS `caracteres texto`, so the `sorted(set(...))`
step cannot vary between runs. -/
theorem encoding_deterministic (texto : List Nat) :
    bit_packing_texto texto = bit_packing_texto texto ∧
    ∀ l : List Nat, l.Sorted (· < ·) → l.toFinset = texto.toFinset →
      l = caracteres texto := by
  refine ⟨rfl, fun l hs hf => ?_⟩
  have hperm : List.Perm l (caracteres texto) := by
    apply List.perm_of_nodup_nodup_toFinset_eq hs.nodup (caracteres_nodup texto)
    rw [hf, caracteres_toFinset]
  exact List.eq_of_perm_of_sorted hperm hs (caracteres_sorted_lt texto)

theorem encoding_deterministic_witness :
    bit_packing_texto [5, 3] = bit_packing_texto [5, 3] ∧
      [3, 5] = caracteres [5, 3] :=
  ⟨(encoding_deterministic [5, 3]).1,
   (encoding_deterministic [5, 3]).2 [3, 5] (by decide) (by decide)⟩

/-- C8: when the text is read successfully but is empty, the run aborts
before any compression or metric computation: `executar_teste` returns no
result record. -/
theorem empty_input_aborts (rI rF : Recursos) (tI tF : ℝ) (ts : String) :
    executar_teste (some []) rI rF tI tF ts = none := by
  rfl

/-- C9: the CPU-utilization value placed in the result record equals
`(cpu_user_after - cpu_user_before) * 100` — the difference of the
user-CPU-time fields of the two snapshots times 100, with no division by
elapsed wall time. -/
theorem cpu_delta_formula (texto : List Nat) (rI rF : Recursos) (tI tF : ℝ)
    (ts : String) (h : texto ≠ []) :
    Option.map Resultados.cpu_utilizado (executar_teste (some texto) rI rF tI tF ts) =
      some ((rF.cpu_user - rI.cpu_user) * 100) := by
  rw [executar_teste_eq_some h]
  rfl

theorem cpu_delta_formula_witness :
    Option.map Resultados.cpu_utilizado
        (executar_teste (some [97]) ⟨0, 0, 0, 0⟩ ⟨1, 0, 0, 0⟩ 0 0 "") =
      some ((1 - 0) * 100) :=
  cpu_delta_formula [97] ⟨0, 0, 0, 0⟩ ⟨1, 0, 0, 0⟩ 0 0 "" (by decide)

/-- C10: for non-empty text (the only case in which `executar_teste`
reaches the encode step) the metadata always carries the
distinct-character-count entry, so the record assembly's lookup of that
key cannot fail: the missing-key branch is unreachable and the run
produces a record. -/
theorem count_key_present (texto : List Nat) (rI rF : Recursos) (tI tF : ℝ)
    (ts : String) (h : texto ≠ []) :
    ((bit_packing_texto texto).2.n_caracteres_unicos).isSome = true ∧
    (executar_teste (some texto) rI rF tI tF ts).isSome = true := by
  constructor
  · rw [bit_packing_texto_ne h]
    rfl
  · rw [executar_teste_eq_some h]
    rfl

theorem count_key_present_witness :
    ((bit_packing_texto [97, 98]).2.n_caracteres_unicos).isSome = true ∧
      (executar_teste (some [97, 98]) ⟨0, 0, 0, 0⟩ ⟨0, 0, 0, 0⟩ 0 0 "").isSome = true :=
  count_key_present [97, 98] ⟨0, 0, 0, 0⟩ ⟨0, 0, 0, 0⟩ 0 0 "" (by decide)

end T1
